import Mathlib

/-!
Shallow embedding of the YAMLetMeSee indentation-structure algorithm
(`src/extension.ts`).  A document is a `List String` of line texts; the
cursor line is an `Int` (the host may hand an out-of-range value).  All
functions below are direct translations of the corresponding functions
inside `updateDecorations` and its helpers.
-/

/-- A line is blank when its text is whitespace only
(models `line.text.trim().length === 0`). -/
def isBlank (s : String) : Bool := s.data.all (fun c => c.isWhitespace)

/-- Tests whether a character list starts with a space (models the
`i + 1 < line.length && line[i + 1] === ' '` lookahead of
`getEffectiveIndentColumn`). -/
def firstIsSpace : List Char → Bool
  | ' ' :: _ => true
  | _ => false

/-- Character-level scan of `getEffectiveIndentColumn` (extension.ts 18-33):
a space adds 1, a tab adds 4, a `-` immediately followed by a space stops the
scan without counting the marker, and any other character stops the scan. -/
def effIndentChars : List Char → Nat
  | [] => 0
  | c :: rest =>
    if c = ' ' then 1 + effIndentChars rest
    else if c = '\t' then 4 + effIndentChars rest
    else if c = '-' ∧ firstIsSpace rest = true then 0
    else 0

/-- `getEffectiveIndentColumn` (extension.ts 18-33) on a line's text. -/
def getEffectiveIndentColumn (line : String) : Nat := effIndentChars line.data

/-- `getIndentationLevel` (extension.ts 38-41): `floor(effective / 2)`. -/
def getIndentationLevel (line : String) : Nat := getEffectiveIndentColumn line / 2

/-- `getIndentationColumn` (extension.ts 43-45): `level * 2`. -/
def getIndentationColumn (level : Nat) : Nat := level * 2

/-- The forward loop of `hasNestedContent` (extension.ts 55-61): skip blank
lines; at the first non-blank line compare its column with `cur`. -/
def nestedScan (cur : Nat) : List String → Bool
  | [] => false
  | l :: rest =>
    if isBlank l then nestedScan cur rest
    else decide (cur < getEffectiveIndentColumn l)

/-- `hasNestedContent` (extension.ts 47-63). -/
def hasNestedContent (doc : List String) (i : Nat) : Bool :=
  if doc.length - 1 ≤ i then false
  else if isBlank (doc.getD i "") then false
  else nestedScan (getEffectiveIndentColumn (doc.getD i "")) (doc.drop (i + 1))

/-- The backward loop of `getParentColumn` (extension.ts 77-84): iterate the
indices `j-1, j-2, ..., 0`, skipping blank lines, returning the first column
strictly below `cur`. -/
def parentScan (doc : List String) (cur : Nat) : Nat → Int
  | 0 => -1
  | j + 1 =>
    if isBlank (doc.getD j "") then parentScan doc cur j
    else if getEffectiveIndentColumn (doc.getD j "") < cur then
      ((getEffectiveIndentColumn (doc.getD j "") : Nat) : Int)
    else parentScan doc cur j

/-- `getParentColumn` (extension.ts 69-86). -/
def getParentColumn (doc : List String) (i : Nat) : Int :=
  if i = 0 then -1
  else if getEffectiveIndentColumn (doc.getD i "") = 0 then -1
  else parentScan doc (getEffectiveIndentColumn (doc.getD i "")) i

/-- `getParentIndentationLevel` (extension.ts 88-92). -/
def getParentIndentationLevel (doc : List String) (i : Nat) : Int :=
  if getParentColumn doc i < 0 then -1
  else (((getParentColumn doc i).toNat / 2 : Nat) : Int)

/-- The anchor search inside `addAncestorColumns` (extension.ts 167-176):
the nearest preceding non-blank line whose own column equals `pcol`
(iterating `j-1, ..., 0`). -/
def findAnchor (doc : List String) (pcol : Nat) : Nat → Option Nat
  | 0 => none
  | j + 1 =>
    if isBlank (doc.getD j "") then findAnchor doc pcol j
    else if getEffectiveIndentColumn (doc.getD j "") = pcol then some j
    else findAnchor doc pcol j

/-- `addAncestorColumns` (extension.ts 159-178), written with an explicit
recursion bound: the anchor found by `findAnchor doc pcol i` is always `< i`,
so with bound `i + 1` the bound is never exhausted; this mirrors the
source's memoized recursion, whose emitted column set is the union of the
per-line ancestor chains. -/
def ancestorColsFuel (doc : List String) : Nat → Nat → List Nat
  | 0, _ => []
  | fuel + 1, i =>
    if 0 ≤ getParentColumn doc i then
      match findAnchor doc (getParentColumn doc i).toNat i with
      | some j => (getParentColumn doc i).toNat :: ancestorColsFuel doc fuel j
      | none => [(getParentColumn doc i).toNat]
    else []

/-- Ancestor columns contributed by line `i` (see `ancestorColsFuel`). -/
def addAncestorColumns (doc : List String) (i : Nat) : List Nat :=
  ancestorColsFuel doc (i + 1) i

/-- The `indentColumns` set (extension.ts 156-187): ancestor columns of every
non-blank line, with column 0 always added at the end.  Kept as a list;
only membership matters (the source stores a `Set` and later sorts it). -/
def indentColumns (doc : List String) : List Nat :=
  (((List.range doc.length).filter
      (fun i => !(isBlank (doc.getD i "")))).flatMap (addAncestorColumns doc)) ++ [0]

/-- The inner block-extent loop of the range builder (extension.ts 209-228):
starting at index `j` with current `blockEnd = b`, blank lines and deeper
lines extend the block, the first non-blank line at column `≤ c` ends it. -/
def blockEndScan (c : Nat) : List String → Nat → Nat → Nat
  | [], _, b => b
  | l :: rest, j, b =>
    if isBlank l then blockEndScan c rest (j + 1) j
    else if getEffectiveIndentColumn l ≤ c then b
    else blockEndScan c rest (j + 1) j

/-- `blockEnd` for a block-head line `i` at column `c` (extension.ts 209-228). -/
def blockEnd (doc : List String) (c i : Nat) : Nat :=
  blockEndScan c (doc.drop (i + 1)) (i + 1) i

/-- Guide-range lines at column `c` (extension.ts 194-236): every non-blank
line whose own column equals `c` is a block head and contributes the lines
`i+1 .. blockEnd` of its block.  Only the line numbers are kept; the source
pairs each with the horizontal extent `[c, c + spacesPerIndent)`. -/
def rangesAt (doc : List String) (c : Nat) : List Nat :=
  (List.range doc.length).flatMap (fun i =>
    if isBlank (doc.getD i "") = false ∧ getEffectiveIndentColumn (doc.getD i "") = c then
      List.range' (i + 1) (blockEnd doc c i - i)
    else [])

/-- The key set of the `columnRanges` map (extension.ts 238-240): collected
columns whose range list is non-empty. -/
def keyCols (doc : List String) : List Nat :=
  (indentColumns doc).filter (fun c => !((rangesAt doc c).isEmpty))

/-- The forward active-block loop (extension.ts 267-273 and 283-289):
starting at index `j` with current end `e`, blank lines are skipped, deeper
lines move the end, the first non-blank line at column `≤ c` stops the scan. -/
def scanFwdList (c : Nat) : List String → Nat → Nat → Nat
  | [], _, e => e
  | l :: rest, j, e =>
    if isBlank l then scanFwdList c rest (j + 1) e
    else if c < getEffectiveIndentColumn l then scanFwdList c rest (j + 1) j
    else e

/-- `scanFwd doc c m e`: the forward active-block loop from index `m`. -/
def scanFwd (doc : List String) (c m e : Nat) : Nat :=
  scanFwdList c (doc.drop m) m e

/-- The backward active-block loop (extension.ts 276-282): iterate indices
`m-1, ..., 0` with current start `s`; blank lines are skipped, deeper lines
move the start, the first non-blank line at column `≤ c` stops the scan. -/
def scanBwd (doc : List String) (c : Nat) : Nat → Nat → Nat
  | 0, s => s
  | j + 1, s =>
    if isBlank (doc.getD j "") then scanBwd doc c j s
    else if c < getEffectiveIndentColumn (doc.getD j "") then scanBwd doc c j j
    else s

/-- The active-block computation for an in-range cursor line `L`
(extension.ts 249-292).  Returns `(activeIndentColumn, activeBlockStart,
activeBlockEnd)`, all `-1` when no active block exists. -/
def resolveActiveNat (doc : List String) (L : Nat) : Int × Int × Int :=
  if isBlank (doc.getD L "") then (-1, -1, -1)
  else if hasNestedContent doc L then
    ((getIndentationColumn (getIndentationLevel (doc.getD L "")) : Nat),
      ((L + 1 : Nat) : Int),
      ((scanFwd doc (getIndentationColumn (getIndentationLevel (doc.getD L ""))) (L + 1) L : Nat) : Int))
  else if 0 ≤ getParentIndentationLevel doc L then
    ((getIndentationColumn (getParentIndentationLevel doc L).toNat : Nat),
      ((scanBwd doc (getIndentationColumn (getParentIndentationLevel doc L).toNat) L L : Nat) : Int),
      ((scanFwd doc (getIndentationColumn (getParentIndentationLevel doc L).toNat) (L + 1) L : Nat) : Int))
  else (-1, -1, -1)

/-- The full active-block computation (extension.ts 244-293): out-of-range
cursor lines yield no active block. -/
def resolveActive (doc : List String) (cursor : Int) : Int × Int × Int :=
  if 0 ≤ cursor ∧ cursor < (doc.length : Int) then resolveActiveNat doc cursor.toNat
  else (-1, -1, -1)

example : getEffectiveIndentColumn "  - a" = 2 := by decide
example : resolveActive ["a:", "  b: 1", "", "  c: 2"] 0 = (0, 1, 3) := by decide
example : resolveActive [" a:", "   b"] 0 = (0, 1, 1) := by decide
example : keyCols [" a:", "   b"] = [1] := by decide
example : keyCols ["  a:", "    b"] = [2] := by decide
example : hasNestedContent ["  a:", "    b"] 0 = true := by decide
example : 0 ∈ keyCols ["a:", "  - x", "  - y", "d:"] := by decide
example : ∀ c ∈ keyCols ["a:", "  - x", "  - y", "d:"], c = 0 := by decide
example : resolveActive ["a:", "  - x", "  - y", "d:"] 1 = (0, 1, 2) := by decide

/-! ### Position bookkeeping for the index-carrying scans -/

theorem drop_eq_getD_cons {doc : List String} {m : Nat} (h : m < doc.length) :
    doc.drop m = doc.getD m "" :: doc.drop (m + 1) := by
  rw [List.drop_eq_getElem_cons h]
  simp [List.getD_eq_getElem?_getD, List.getElem?_eq_getElem h]

theorem getD_mem {doc : List String} {m : Nat} (h : m < doc.length) :
    doc.getD m "" ∈ doc := by
  have := List.getElem_mem h
  rwa [List.getD_eq_getElem?_getD, List.getElem?_eq_getElem h]

theorem length_le_of_drop_eq_nil {doc : List String} {m : Nat}
    (h : doc.drop m = []) : doc.length ≤ m := by
  have := congrArg List.length h
  simp at this
  omega

/-! ### Arithmetic of the effective-indentation scan -/

theorem effIndentChars_replicate_append (n : Nat) (cs : List Char) :
    effIndentChars (List.replicate n ' ' ++ cs) = n + effIndentChars cs := by
  induction n with
  | zero => simp
  | succ n ih =>
    rw [List.replicate_succ, List.cons_append]
    have hstep : effIndentChars (' ' :: (List.replicate n ' ' ++ cs)) =
        1 + effIndentChars (List.replicate n ' ' ++ cs) := by
      simp [effIndentChars]
    rw [hstep, ih]
    omega

/-! ### The forward nested-content scan -/

theorem nestedScan_eq_find? (cur : Nat) (l : List String) :
    nestedScan cur l =
      match l.find? (fun x => !(isBlank x)) with
      | none => false
      | some x => decide (cur < getEffectiveIndentColumn x) := by
  induction l with
  | nil => rfl
  | cons x rest ih =>
    by_cases hx : isBlank x
    · rw [List.find?_cons_of_neg]
      · simpa [nestedScan, hx] using ih
      · simp [hx]
    · rw [List.find?_cons_of_pos]
      · simp [nestedScan, hx]
      · simp [hx]

theorem nestedScan_true_elim {doc : List String} {cur : Nat} :
    ∀ (l : List String) (m : Nat), doc.drop m = l → nestedScan cur l = true →
    ∃ i0, m ≤ i0 ∧ i0 < doc.length ∧ isBlank (doc.getD i0 "") = false ∧
      (∀ k, m ≤ k → k < i0 → isBlank (doc.getD k "") = true) ∧
      cur < getEffectiveIndentColumn (doc.getD i0 "") := by
  intro l
  induction l with
  | nil => intro m _ hscan; simp [nestedScan] at hscan
  | cons x rest ih =>
    intro m hdrop hscan
    have hm : m < doc.length := by
      by_contra hge
      rw [List.drop_eq_nil_of_le (by omega)] at hdrop
      exact List.cons_ne_nil x rest hdrop.symm
    injection (drop_eq_getD_cons hm).symm.trans hdrop with hx1 hx2
    by_cases hbl : isBlank x
    · have hrest : nestedScan cur rest = true := by simpa [nestedScan, hbl] using hscan
      obtain ⟨i0, h1, h2, h3, h4, h5⟩ := ih (m + 1) hx2 hrest
      refine ⟨i0, by omega, h2, h3, ?_, h5⟩
      intro k hk1 hk2
      rcases Nat.eq_or_lt_of_le hk1 with hkm | hkm
      · subst hkm
        rw [hx1]
        exact hbl
      · exact h4 k (by omega) hk2
    · have hlt : cur < getEffectiveIndentColumn x := by
        simpa [nestedScan, hbl] using hscan
      exact ⟨m, le_refl m, hm, by rw [hx1]; simpa using hbl, by omega, by rw [hx1]; exact hlt⟩

/-! ### Comparing the active-block forward scan with the range builder's scan -/

theorem scanFwdList_le_blockEndScan (c : Nat) :
    ∀ (l : List String) (j e b : Nat), e ≤ b → e < j → b < j →
    scanFwdList c l j e ≤ blockEndScan c l j b := by
  intro l
  induction l with
  | nil => intro j e b heb _ _; simpa [scanFwdList, blockEndScan] using heb
  | cons x rest ih =>
    intro j e b heb hej hbj
    by_cases hbl : isBlank x
    · simpa [scanFwdList, blockEndScan, hbl] using ih (j + 1) e j (by omega) (by omega) (by omega)
    · by_cases hdeep : c < getEffectiveIndentColumn x
      · have hns : ¬ getEffectiveIndentColumn x ≤ c := by omega
        simpa [scanFwdList, blockEndScan, hbl, hdeep, hns] using
          ih (j + 1) j j (le_refl j) (by omega) (by omega)
      · have hns : getEffectiveIndentColumn x ≤ c := by omega
        simpa [scanFwdList, blockEndScan, hbl, hdeep, hns] using heb

theorem scanFwdList_ge (c : Nat) :
    ∀ (l : List String) (j e : Nat), e < j → e ≤ scanFwdList c l j e := by
  intro l
  induction l with
  | nil => intro j e _; simp [scanFwdList]
  | cons x rest ih =>
    intro j e hej
    by_cases hbl : isBlank x
    · simpa [scanFwdList, hbl] using ih (j + 1) e (by omega)
    · by_cases hdeep : c < getEffectiveIndentColumn x
      · have := ih (j + 1) j (by omega)
        simp [scanFwdList, hbl, hdeep]
        omega
      · simp [scanFwdList, hbl, hdeep]

theorem blockEndScan_ge (c : Nat) :
    ∀ (l : List String) (j b : Nat), b ≤ j → b ≤ blockEndScan c l j b := by
  intro l
  induction l with
  | nil => intro j b _; simp [blockEndScan]
  | cons x rest ih =>
    intro j b hbj
    by_cases hbl : isBlank x
    · have := ih (j + 1) j (by omega)
      simp [blockEndScan, hbl]
      omega
    · by_cases hsh : getEffectiveIndentColumn x ≤ c
      · simp [blockEndScan, hbl, hsh]
      · have := ih (j + 1) j (by omega)
        simp [blockEndScan, hbl, hsh]
        omega


/-! ### Step equations for the index-carrying scans -/

theorem blockEndScan_cons (c : Nat) (x : String) (rest : List String) (j b : Nat) :
    blockEndScan c (x :: rest) j b =
      if isBlank x then blockEndScan c rest (j + 1) j
      else if getEffectiveIndentColumn x ≤ c then b
      else blockEndScan c rest (j + 1) j := rfl

theorem parentScan_succ (doc : List String) (cur j : Nat) :
    parentScan doc cur (j + 1) =
      if isBlank (doc.getD j "") then parentScan doc cur j
      else if getEffectiveIndentColumn (doc.getD j "") < cur then
        ((getEffectiveIndentColumn (doc.getD j "") : Nat) : Int)
      else parentScan doc cur j := rfl

theorem scanBwd_succ (doc : List String) (c j s : Nat) :
    scanBwd doc c (j + 1) s =
      if isBlank (doc.getD j "") then scanBwd doc c j s
      else if c < getEffectiveIndentColumn (doc.getD j "") then scanBwd doc c j j
      else s := rfl

theorem bool_ne_true {b : Bool} (h : b = false) : ¬ b = true := by simp [h]

theorem blockEndScan_lt_stop {doc : List String} {c j0 : Nat}
    (hj0 : j0 < doc.length) (hnb : isBlank (doc.getD j0 "") = false)
    (hsh : getEffectiveIndentColumn (doc.getD j0 "") ≤ c) :
    ∀ (l : List String) (m b : Nat), doc.drop m = l → m ≤ j0 → b < j0 →
    blockEndScan c l m b < j0 := by
  intro l
  induction l with
  | nil =>
    intro m b hdrop hmj _
    have := length_le_of_drop_eq_nil hdrop
    omega
  | cons x rest ih =>
    intro m b hdrop hmj hbj
    have hm : m < doc.length := by
      by_contra hge
      rw [List.drop_eq_nil_of_le (by omega)] at hdrop
      exact List.cons_ne_nil x rest hdrop.symm
    injection (drop_eq_getD_cons hm).symm.trans hdrop with hx1 hx2
    rw [blockEndScan_cons]
    rcases Nat.eq_or_lt_of_le hmj with hmj0 | hmj0
    · subst hmj0
      rw [hx1] at hnb hsh
      rw [if_neg (bool_ne_true hnb), if_pos hsh]
      omega
    · by_cases hbl : isBlank x
      · rw [if_pos hbl]
        exact ih (m + 1) m hx2 (by omega) (by omega)
      · by_cases hshx : getEffectiveIndentColumn x ≤ c
        · rw [if_neg hbl, if_pos hshx]
          omega
        · rw [if_neg hbl, if_neg hshx]
          exact ih (m + 1) m hx2 (by omega) (by omega)

theorem blockEndScan_shift {doc : List String} {c n : Nat}
    (hn : n ≤ doc.length) :
    ∀ (l : List String) (m b : Nat), doc.drop m = l → m < n →
    (∀ k, m ≤ k → k < n →
      isBlank (doc.getD k "") = true ∨ c < getEffectiveIndentColumn (doc.getD k "")) →
    blockEndScan c l m b = blockEndScan c (doc.drop n) n (n - 1) := by
  intro l
  induction l with
  | nil =>
    intro m b hdrop hmn _
    have := length_le_of_drop_eq_nil hdrop
    omega
  | cons x rest ih =>
    intro m b hdrop hmn hseg
    have hm : m < doc.length := by omega
    injection (drop_eq_getD_cons hm).symm.trans hdrop with hx1 hx2
    have hstep : blockEndScan c (x :: rest) m b = blockEndScan c rest (m + 1) m := by
      rw [blockEndScan_cons]
      rcases hseg m (le_refl m) hmn with hbl | hdeep
      · rw [hx1] at hbl
        rw [if_pos hbl]
      · rw [hx1] at hdeep
        by_cases hbl : isBlank x
        · rw [if_pos hbl]
        · rw [if_neg hbl, if_neg (by omega : ¬ getEffectiveIndentColumn x ≤ c)]
    rw [hstep]
    rcases Nat.eq_or_lt_of_le hmn with heq | hlt
    · have hm1 : m = n - 1 := by omega
      have hm2 : m + 1 = n := by omega
      rw [hm2] at hx2
      rw [← hx2, hm2, hm1]
    · exact ih (m + 1) m hx2 (by omega) (fun k hk1 hk2 => hseg k (by omega) hk2)

/-! ### The backward scans -/

theorem parentScan_eq_find? (doc : List String) (cur : Nat) :
    ∀ m, parentScan doc cur m =
      match ((doc.take m).reverse).find?
          (fun l => !(isBlank l) && decide (getEffectiveIndentColumn l < cur)) with
      | some l => ((getEffectiveIndentColumn l : Nat) : Int)
      | none => -1 := by
  intro m
  induction m with
  | zero => simp [parentScan]
  | succ j ih =>
    rw [parentScan_succ, List.take_succ]
    by_cases hj : j < doc.length
    · rw [List.getElem?_eq_getElem hj]
      have hgd : doc.getD j "" = doc[j] := by
        simp [List.getD_eq_getElem?_getD, List.getElem?_eq_getElem hj]
      rw [hgd]
      simp only [Option.toList_some, List.reverse_append, List.reverse_singleton,
        List.singleton_append, List.find?_cons]
      by_cases hbl : isBlank doc[j]
      · have hpred : (!(isBlank doc[j]) && decide (getEffectiveIndentColumn doc[j] < cur)) = false := by
          simp [hbl]
        rw [if_pos hbl, hpred]
        exact ih
      · by_cases hlt : getEffectiveIndentColumn doc[j] < cur
        · have hpred : (!(isBlank doc[j]) && decide (getEffectiveIndentColumn doc[j] < cur)) = true := by
            simp [hbl, hlt]
          rw [if_neg hbl, if_pos hlt, hpred]
        · have hpred : (!(isBlank doc[j]) && decide (getEffectiveIndentColumn doc[j] < cur)) = false := by
            simp [hbl, hlt]
          rw [if_neg hbl, if_neg hlt, hpred]
          exact ih
    · have hnone : doc[j]? = none := List.getElem?_eq_none (by omega)
      have hgd : doc.getD j "" = "" := by
        simp [List.getD_eq_getElem?_getD, hnone]
      rw [hgd, hnone]
      have hblank : isBlank "" = true := rfl
      rw [if_pos hblank]
      simpa using ih

theorem parentScan_stop {doc : List String} {cur A : Nat}
    (hnbA : isBlank (doc.getD A "") = false)
    (hltA : getEffectiveIndentColumn (doc.getD A "") < cur) :
    ∀ m, A < m → (∀ k, A < k → k < m → isBlank (doc.getD k "") = true) →
    parentScan doc cur m = ((getEffectiveIndentColumn (doc.getD A "") : Nat) : Int) := by
  intro m
  induction m with
  | zero => omega
  | succ j ih =>
    intro hAm hblk
    rw [parentScan_succ]
    rcases Nat.eq_or_lt_of_le (Nat.lt_succ_iff.mp hAm) with hAj | hAj
    · subst hAj
      rw [if_neg (bool_ne_true hnbA), if_pos hltA]
    · have hblj : isBlank (doc.getD j "") = true := hblk j hAj (by omega)
      rw [if_pos hblj]
      exact ih hAj (fun k hk1 hk2 => hblk k hk1 (by omega))

theorem parentScan_pos_elim {doc : List String} {cur : Nat} :
    ∀ m, 0 ≤ parentScan doc cur m →
    ∃ A, A < m ∧ isBlank (doc.getD A "") = false ∧
      ((getEffectiveIndentColumn (doc.getD A "") : Nat) : Int) = parentScan doc cur m ∧
      getEffectiveIndentColumn (doc.getD A "") < cur ∧
      (∀ k, A < k → k < m → isBlank (doc.getD k "") = false →
        cur ≤ getEffectiveIndentColumn (doc.getD k "")) := by
  intro m
  induction m with
  | zero => intro h; simp [parentScan] at h
  | succ j ih =>
    intro hpos
    rw [parentScan_succ] at hpos ⊢
    by_cases hbl : isBlank (doc.getD j "")
    · rw [if_pos hbl] at hpos ⊢
      obtain ⟨A, h1, h2, h3, h4, h5⟩ := ih hpos
      refine ⟨A, by omega, h2, h3, h4, ?_⟩
      intro k hk1 hk2 hk3
      rcases Nat.eq_or_lt_of_le (Nat.lt_succ_iff.mp hk2) with hkj | hkj
      · subst hkj; rw [hbl] at hk3; cases hk3
      · exact h5 k hk1 hkj hk3
    · by_cases hlt : getEffectiveIndentColumn (doc.getD j "") < cur
      · rw [if_neg hbl, if_pos hlt] at hpos ⊢
        refine ⟨j, by omega, by simpa using hbl, rfl, hlt, ?_⟩
        intro k hk1 hk2 _
        omega
      · rw [if_neg hbl, if_neg hlt] at hpos ⊢
        obtain ⟨A, h1, h2, h3, h4, h5⟩ := ih hpos
        refine ⟨A, by omega, h2, h3, h4, ?_⟩
        intro k hk1 hk2 hk3
        rcases Nat.eq_or_lt_of_le (Nat.lt_succ_iff.mp hk2) with hkj | hkj
        · subst hkj; omega
        · exact h5 k hk1 hkj hk3

theorem scanBwd_gt_stop {doc : List String} {c A : Nat}
    (hnbA : isBlank (doc.getD A "") = false)
    (hshA : getEffectiveIndentColumn (doc.getD A "") ≤ c) :
    ∀ m s, A < m → A < s →
    (∀ k, A < k → k < m → isBlank (doc.getD k "") = false →
      c < getEffectiveIndentColumn (doc.getD k "")) →
    A < scanBwd doc c m s := by
  intro m
  induction m with
  | zero => omega
  | succ j ih =>
    intro s hAm hAs hdeep
    rw [scanBwd_succ]
    rcases Nat.eq_or_lt_of_le (Nat.lt_succ_iff.mp hAm) with hAj | hAj
    · subst hAj
      rw [if_neg (bool_ne_true hnbA), if_neg (by omega : ¬ c < getEffectiveIndentColumn (doc.getD A ""))]
      exact hAs
    · by_cases hbl : isBlank (doc.getD j "")
      · rw [if_pos hbl]
        exact ih s hAj hAs (fun k hk1 hk2 => hdeep k hk1 (by omega))
      · have hdj : c < getEffectiveIndentColumn (doc.getD j "") :=
          hdeep j hAj (by omega) (by simpa using hbl)
        rw [if_neg hbl, if_pos hdj]
        exact ih j hAj hAj (fun k hk1 hk2 => hdeep k hk1 (by omega))

theorem scanBwd_le (doc : List String) (c : Nat) :
    ∀ m s, scanBwd doc c m s ≤ max s m := by
  intro m
  induction m with
  | zero => intro s; simp [scanBwd]
  | succ j ih =>
    intro s
    rw [scanBwd_succ]
    by_cases hbl : isBlank (doc.getD j "")
    · rw [if_pos hbl]
      have := ih s
      omega
    · by_cases hdeep : c < getEffectiveIndentColumn (doc.getD j "")
      · rw [if_neg hbl, if_pos hdeep]
        have := ih j
        omega
      · rw [if_neg hbl, if_neg hdeep]
        omega

/-! ### Membership in the collected columns and built ranges -/

theorem hasNestedContent_true_elim {doc : List String} {i : Nat}
    (h : hasNestedContent doc i = true) :
    isBlank (doc.getD i "") = false ∧
    ∃ i0, i < i0 ∧ i0 < doc.length ∧ isBlank (doc.getD i0 "") = false ∧
      (∀ k, i < k → k < i0 → isBlank (doc.getD k "") = true) ∧
      getEffectiveIndentColumn (doc.getD i "") < getEffectiveIndentColumn (doc.getD i0 "") := by
  unfold hasNestedContent at h
  by_cases h1 : doc.length - 1 ≤ i
  · rw [if_pos h1] at h; cases h
  · rw [if_neg h1] at h
    by_cases h2 : isBlank (doc.getD i "")
    · rw [if_pos h2] at h; cases h
    · rw [if_neg h2] at h
      obtain ⟨i0, ha, hb, hc, hd, he⟩ := nestedScan_true_elim (doc.drop (i + 1)) (i + 1) rfl h
      exact ⟨by simpa using h2, i0, by omega, hb, hc,
        fun k hk1 hk2 => hd k (by omega) hk2, he⟩

theorem mem_addAncestorColumns_head {doc : List String} {i : Nat}
    (h : 0 ≤ getParentColumn doc i) :
    (getParentColumn doc i).toNat ∈ addAncestorColumns doc i := by
  unfold addAncestorColumns ancestorColsFuel
  rw [if_pos h]
  rcases findAnchor doc (getParentColumn doc i).toNat i with _ | j
  · exact List.mem_singleton.mpr rfl
  · exact List.mem_cons_self _ _

theorem mem_indentColumns_of_parent {doc : List String} {i : Nat}
    (hi : i < doc.length) (hnb : isBlank (doc.getD i "") = false)
    (hp : 0 ≤ getParentColumn doc i) :
    (getParentColumn doc i).toNat ∈ indentColumns doc := by
  unfold indentColumns
  refine List.mem_append_left _ ?_
  refine List.mem_flatMap.mpr ⟨i, ?_, mem_addAncestorColumns_head hp⟩
  refine List.mem_filter.mpr ⟨List.mem_range.mpr hi, ?_⟩
  show (!(isBlank (doc.getD i ""))) = true
  rw [hnb]
  rfl

theorem zero_mem_indentColumns (doc : List String) : 0 ∈ indentColumns doc := by
  unfold indentColumns
  exact List.mem_append_right _ (List.mem_singleton.mpr rfl)

theorem blockEnd_ge (doc : List String) (c i : Nat) : i ≤ blockEnd doc c i :=
  blockEndScan_ge c (doc.drop (i + 1)) (i + 1) i (by omega)

theorem mem_rangesAt {doc : List String} {c A k : Nat}
    (hA : A < doc.length) (hnb : isBlank (doc.getD A "") = false)
    (hcol : getEffectiveIndentColumn (doc.getD A "") = c)
    (hk1 : A + 1 ≤ k) (hk2 : k ≤ blockEnd doc c A) :
    k ∈ rangesAt doc c := by
  unfold rangesAt
  refine List.mem_flatMap.mpr ⟨A, List.mem_range.mpr hA, ?_⟩
  rw [if_pos ⟨hnb, hcol⟩]
  have hge := blockEnd_ge doc c A
  exact List.mem_range'_1.mpr ⟨hk1, by omega⟩

theorem mem_keyCols {doc : List String} {c x : Nat}
    (hc : c ∈ indentColumns doc) (hx : x ∈ rangesAt doc c) :
    c ∈ keyCols doc := by
  unfold keyCols
  refine List.mem_filter.mpr ⟨hc, ?_⟩
  have hne : rangesAt doc c ≠ [] := List.ne_nil_of_mem hx
  simpa using hne

/-! ### Case equations for the active-block resolver -/

theorem resolveActiveNat_parent {doc : List String} {L : Nat}
    (hbl : isBlank (doc.getD L "") = false) (hp : hasNestedContent doc L = true) :
    resolveActiveNat doc L =
      (((getIndentationColumn (getIndentationLevel (doc.getD L "")) : Nat) : Int),
        ((L + 1 : Nat) : Int),
        ((scanFwd doc (getIndentationColumn (getIndentationLevel (doc.getD L ""))) (L + 1) L : Nat) : Int)) := by
  unfold resolveActiveNat
  rw [if_neg (bool_ne_true hbl), if_pos hp]

theorem resolveActiveNat_sib {doc : List String} {L : Nat}
    (hbl : isBlank (doc.getD L "") = false) (hp : hasNestedContent doc L = false)
    (hpl : 0 ≤ getParentIndentationLevel doc L) :
    resolveActiveNat doc L =
      (((getIndentationColumn (getParentIndentationLevel doc L).toNat : Nat) : Int),
        ((scanBwd doc (getIndentationColumn (getParentIndentationLevel doc L).toNat) L L : Nat) : Int),
        ((scanFwd doc (getIndentationColumn (getParentIndentationLevel doc L).toNat) (L + 1) L : Nat) : Int)) := by
  unfold resolveActiveNat
  rw [if_neg (bool_ne_true hbl), if_neg (bool_ne_true hp), if_pos hpl]

theorem resolveActiveNat_blank {doc : List String} {L : Nat}
    (hbl : isBlank (doc.getD L "") = true) :
    resolveActiveNat doc L = (-1, -1, -1) := by
  unfold resolveActiveNat
  rw [if_pos hbl]

theorem resolveActiveNat_orphan {doc : List String} {L : Nat}
    (hbl : isBlank (doc.getD L "") = false) (hp : hasNestedContent doc L = false)
    (hpl : ¬ 0 ≤ getParentIndentationLevel doc L) :
    resolveActiveNat doc L = (-1, -1, -1) := by
  unfold resolveActiveNat
  rw [if_neg (bool_ne_true hbl), if_neg (bool_ne_true hp), if_neg hpl]

theorem resolveActive_inRange {doc : List String} {cursor : Int}
    (h : 0 ≤ cursor ∧ cursor < (doc.length : Int)) :
    resolveActive doc cursor = resolveActiveNat doc cursor.toNat := by
  unfold resolveActive
  rw [if_pos h]

theorem resolveActive_outOfRange {doc : List String} {cursor : Int}
    (h : ¬ (0 ≤ cursor ∧ cursor < (doc.length : Int))) :
    resolveActive doc cursor = (-1, -1, -1) := by
  unfold resolveActive
  rw [if_neg h]

/-! ### Core facts about the active block -/

theorem gPIL_nonneg_iff {doc : List String} {L : Nat} :
    0 ≤ getParentIndentationLevel doc L ↔ 0 ≤ getParentColumn doc L := by
  unfold getParentIndentationLevel
  by_cases h : getParentColumn doc L < 0
  · rw [if_pos h]
    constructor
    · intro h0; omega
    · intro h0; omega
  · rw [if_neg h]
    exact ⟨fun _ => by omega, fun _ => Int.natCast_nonneg _⟩

theorem getParentColumn_nonneg_parentScan {doc : List String} {L : Nat}
    (h : 0 ≤ getParentColumn doc L) :
    L ≠ 0 ∧ getEffectiveIndentColumn (doc.getD L "") ≠ 0 ∧
      getParentColumn doc L = parentScan doc (getEffectiveIndentColumn (doc.getD L "")) L := by
  unfold getParentColumn at h ⊢
  by_cases h1 : L = 0
  · rw [if_pos h1] at h; omega
  · rw [if_neg h1] at h ⊢
    by_cases h2 : getEffectiveIndentColumn (doc.getD L "") = 0
    · rw [if_pos h2] at h; omega
    · rw [if_neg h2] at h ⊢
      exact ⟨h1, h2, rfl⟩

theorem active_parent_core {doc : List String} {L : Nat}
    (hL : L < doc.length) (hbl : isBlank (doc.getD L "") = false)
    (hp : hasNestedContent doc L = true) :
    getEffectiveIndentColumn (doc.getD L "") ∈ indentColumns doc ∧
    (∀ k, L + 1 ≤ k → k ≤ scanFwd doc (getEffectiveIndentColumn (doc.getD L "")) (L + 1) L →
      k ∈ rangesAt doc (getEffectiveIndentColumn (doc.getD L ""))) := by
  obtain ⟨-, i0, hi0L, hi0len, hnb0, hblanks, hlt⟩ := hasNestedContent_true_elim hp
  constructor
  · have hps : parentScan doc (getEffectiveIndentColumn (doc.getD i0 "")) i0 =
        ((getEffectiveIndentColumn (doc.getD L "") : Nat) : Int) :=
      parentScan_stop hbl hlt i0 hi0L hblanks
    have hpc : getParentColumn doc i0 =
        ((getEffectiveIndentColumn (doc.getD L "") : Nat) : Int) := by
      unfold getParentColumn
      rw [if_neg (by omega : ¬ i0 = 0),
        if_neg (by omega : ¬ getEffectiveIndentColumn (doc.getD i0 "") = 0)]
      exact hps
    have hmem := mem_indentColumns_of_parent hi0len hnb0 (by rw [hpc]; exact Int.natCast_nonneg _)
    rwa [hpc, Int.toNat_natCast] at hmem
  · intro k hk1 hk2
    have hle : scanFwd doc (getEffectiveIndentColumn (doc.getD L "")) (L + 1) L ≤
        blockEnd doc (getEffectiveIndentColumn (doc.getD L "")) L :=
      scanFwdList_le_blockEndScan _ (doc.drop (L + 1)) (L + 1) L L (le_refl L) (by omega) (by omega)
    exact mem_rangesAt hL hbl rfl hk1 (le_trans hk2 hle)

theorem active_sib_core {doc : List String} {L q : Nat}
    (hL : L < doc.length) (hbl : isBlank (doc.getD L "") = false)
    (hq : getParentColumn doc L = ((q : Nat) : Int)) :
    q ∈ indentColumns doc ∧
    scanBwd doc q L L ≤ L ∧ L ≤ scanFwd doc q (L + 1) L ∧
    (∃ A, A < L ∧ isBlank (doc.getD A "") = false ∧
      getEffectiveIndentColumn (doc.getD A "") = q) ∧
    (∀ k, scanBwd doc q L L ≤ k → k ≤ scanFwd doc q (L + 1) L → k ∈ rangesAt doc q) := by
  have hq0 : 0 ≤ getParentColumn doc L := by rw [hq]; exact Int.natCast_nonneg _
  obtain ⟨hL0, hc0, hps⟩ := getParentColumn_nonneg_parentScan hq0
  have hpos : 0 ≤ parentScan doc (getEffectiveIndentColumn (doc.getD L "")) L := by
    rw [← hps, hq]; exact Int.natCast_nonneg _
  obtain ⟨A, hAL, hnbA, hAval, hAlt, hbetween⟩ := parentScan_pos_elim L hpos
  have hAq : getEffectiveIndentColumn (doc.getD A "") = q := by
    have hcast : ((getEffectiveIndentColumn (doc.getD A "") : Nat) : Int) = ((q : Nat) : Int) := by
      rw [hAval, ← hps,  hq]
    exact_mod_cast hcast
  have hqlt : q < getEffectiveIndentColumn (doc.getD L "") := by
    rw [← hAq]; exact hAlt
  have hdeep : ∀ k, A < k → k < L → isBlank (doc.getD k "") = false →
      q < getEffectiveIndentColumn (doc.getD k "") := by
    intro k hk1 hk2 hk3
    have := hbetween k hk1 hk2 hk3
    omega
  have hS : A < scanBwd doc q L L :=
    scanBwd_gt_stop hnbA (le_of_eq hAq) L L hAL hAL hdeep
  have hSle : scanBwd doc q L L ≤ L := by
    have := scanBwd_le doc q L L
    omega
  have hEge : L ≤ scanFwd doc q (L + 1) L :=
    scanFwdList_ge q (doc.drop (L + 1)) (L + 1) L (by omega)
  have hseg : ∀ k, A + 1 ≤ k → k < L + 1 →
      isBlank (doc.getD k "") = true ∨ q < getEffectiveIndentColumn (doc.getD k "") := by
    intro k hk1 hk2
    by_cases hkL : k = L
    · right; subst hkL; exact hqlt
    · by_cases hbk : isBlank (doc.getD k "")
      · left; exact hbk
      · right; exact hdeep k (by omega) (by omega) (by simpa using hbk)
  have hshift : blockEnd doc q A = blockEndScan q (doc.drop (L + 1)) (L + 1) L := by
    unfold blockEnd
    have := @blockEndScan_shift doc q (L + 1) (by omega)
      (doc.drop (A + 1)) (A + 1) A rfl (by omega) hseg
    simpa using this
  have hE : scanFwd doc q (L + 1) L ≤ blockEnd doc q A := by
    rw [hshift]
    exact scanFwdList_le_blockEndScan q (doc.drop (L + 1)) (L + 1) L L (le_refl L) (by omega) (by omega)
  refine ⟨?_, hSle, hEge, ⟨A, hAL, hnbA, hAq⟩, ?_⟩
  · have hmem := mem_indentColumns_of_parent hL hbl hq0
    rwa [hq, Int.toNat_natCast] at hmem
  · intro k hk1 hk2
    exact mem_rangesAt (by omega) hnbA hAq (by omega) (le_trans hk2 hE)

/-! ### Claim theorems -/

/-- C3: `getEffectiveIndentColumn` scans leading characters accumulating
+1 per space and +4 per tab, stops without counting at a `-` immediately
followed by a space, and stops at any other character; being a Lean
function it is total and never fails; in particular
`getEffectiveIndentColumn "  - a" = 2`, not 4. -/
theorem c3_effective_column_scan :
    (∀ s : List Char, effIndentChars (' ' :: s) = 1 + effIndentChars s) ∧
    (∀ s : List Char, effIndentChars ('\t' :: s) = 4 + effIndentChars s) ∧
    (∀ s : List Char, effIndentChars ('-' :: ' ' :: s) = 0) ∧
    (∀ (c : Char) (s : List Char), c ≠ ' ' → c ≠ '\t' → effIndentChars (c :: s) = 0) ∧
    effIndentChars [] = 0 ∧
    getEffectiveIndentColumn "  - a" = 2 := by
  refine ⟨?_, ?_, ?_, ?_, rfl, by decide⟩
  · intro s; simp [effIndentChars]
  · intro s; simp [effIndentChars]
  · intro s; simp [effIndentChars, firstIsSpace]
  · intro c s h1 h2
    simp [effIndentChars, h1, h2]

/-- Witness for C3's conditional conjunct at the concrete character `x`. -/
theorem c3_effective_column_scan_witness : effIndentChars ['x'] = 0 :=
  c3_effective_column_scan.2.2.2.1 'x' [] (by decide) (by decide)

/-- C4: the effective column is monotonically non-decreasing in the number
of prepended leading spaces. -/
theorem c4_effective_column_monotone (s : String) (m n : Nat) (h : m ≤ n) :
    getEffectiveIndentColumn (String.mk (List.replicate m ' ' ++ s.data)) ≤
    getEffectiveIndentColumn (String.mk (List.replicate n ' ' ++ s.data)) := by
  show effIndentChars (List.replicate m ' ' ++ s.data) ≤
    effIndentChars (List.replicate n ' ' ++ s.data)
  rw [effIndentChars_replicate_append, effIndentChars_replicate_append]
  omega

/-- Witness for C4 at `s = "a"`, `m = 1`, `n = 2`. -/
theorem c4_effective_column_monotone_witness :
    getEffectiveIndentColumn (String.mk (List.replicate 1 ' ' ++ ("a" : String).data)) ≤
    getEffectiveIndentColumn (String.mk (List.replicate 2 ' ' ++ ("a" : String).data)) :=
  c4_effective_column_monotone "a" 1 2 (by decide)

/-- C5: `hasNestedContent doc i` is false when line `i` is the last line or
blank; otherwise it is true iff the first non-blank line after `i`
(skipping blanks) has a strictly greater effective column — only that
immediately-next non-blank line matters. -/
theorem c5_hasNestedContent_spec (doc : List String) (i : Nat) :
    hasNestedContent doc i = true ↔
      (i + 1 < doc.length ∧ isBlank (doc.getD i "") = false ∧
        ∃ l, (doc.drop (i + 1)).find? (fun x => !(isBlank x)) = some l ∧
          getEffectiveIndentColumn (doc.getD i "") < getEffectiveIndentColumn l) := by
  unfold hasNestedContent
  by_cases h1 : doc.length - 1 ≤ i
  · rw [if_pos h1]
    constructor
    · intro h; cases h
    · rintro ⟨ha, -, -⟩; omega
  · rw [if_neg h1]
    by_cases h2 : isBlank (doc.getD i "")
    · rw [if_pos h2]
      constructor
      · intro h; cases h
      · rintro ⟨-, hb, -⟩; rw [h2] at hb; cases hb
    · rw [if_neg h2]
      rw [nestedScan_eq_find?]
      have h3 : i + 1 < doc.length := by omega
      rcases hfind : (doc.drop (i + 1)).find? (fun x => !(isBlank x)) with _ | l
      · simp [hfind]
      · have h2' : isBlank (doc[i]?.getD "") = false := by
          simpa [List.getD_eq_getElem?_getD] using h2
        simp [hfind, h3, h2']

/-- C6: `getParentColumn doc i` is -1 when `i = 0` or line `i`'s effective
column is 0; otherwise it is the effective column of the nearest preceding
non-blank line with a strictly smaller effective column, or -1 when no such
line exists. -/
theorem c6_getParentColumn_spec (doc : List String) (i : Nat) :
    getParentColumn doc i =
      if i = 0 then -1
      else if getEffectiveIndentColumn (doc.getD i "") = 0 then -1
      else
        match ((doc.take i).reverse).find?
            (fun l => !(isBlank l) && decide (getEffectiveIndentColumn l <
              getEffectiveIndentColumn (doc.getD i ""))) with
        | some l => ((getEffectiveIndentColumn l : Nat) : Int)
        | none => -1 := by
  unfold getParentColumn
  by_cases h1 : i = 0
  · rw [if_pos h1, if_pos h1]
  · rw [if_neg h1, if_neg h1]
    by_cases h2 : getEffectiveIndentColumn (doc.getD i "") = 0
    · rw [if_pos h2, if_pos h2]
    · rw [if_neg h2, if_neg h2]
      exact parentScan_eq_find? doc _ i

/-- C8: on `["a:", "  b: 1", "", "  c: 2"]` with the cursor on line 0, the
active block spans lines (1,3): the interior blank line 2 is included and
the block does not end at the blank line. -/
theorem c8_blank_inside_block :
    resolveActive ["a:", "  b: 1", "", "  c: 2"] 0 = (0, 1, 3) := by decide

/-- C10 helper: an active column obtained through `getIndentationColumn`
is an even natural number. -/
theorem getIndentationColumn_cast_dvd (n : Nat) :
    (2 : Int) ∣ ((getIndentationColumn n : Nat) : Int) := by
  unfold getIndentationColumn
  exact ⟨(n : Int), by push_cast; ring⟩

/-- C10: the active column is always -1 or an even non-negative integer
(being produced by `levelToColumn`), so it can be strictly below the
cursor-relevant line's actual effective column when that column is odd —
witnessed by `[" a:", "   b"]` with the cursor on line 0. -/
theorem c10_active_column_even :
    (∀ (doc : List String) (cursor : Int),
      (resolveActive doc cursor).1 = -1 ∨
      (0 ≤ (resolveActive doc cursor).1 ∧ 2 ∣ (resolveActive doc cursor).1)) ∧
    (resolveActive [" a:", "   b"] 0).1 <
      ((getEffectiveIndentColumn (" a:" : String) : Nat) : Int) := by
  constructor
  · intro doc cursor
    by_cases hr : 0 ≤ cursor ∧ cursor < (doc.length : Int)
    · rw [resolveActive_inRange hr]
      by_cases hbl : isBlank (doc.getD cursor.toNat "")
      · rw [resolveActiveNat_blank hbl]; left; rfl
      · have hbl' : isBlank (doc.getD cursor.toNat "") = false := by simpa using hbl
        by_cases hp : hasNestedContent doc cursor.toNat
        · rw [resolveActiveNat_parent hbl' hp]
          exact Or.inr ⟨Int.natCast_nonneg _, getIndentationColumn_cast_dvd _⟩
        · have hp' : hasNestedContent doc cursor.toNat = false := by simpa using hp
          by_cases hpl : 0 ≤ getParentIndentationLevel doc cursor.toNat
          · rw [resolveActiveNat_sib hbl' hp' hpl]
            exact Or.inr ⟨Int.natCast_nonneg _, getIndentationColumn_cast_dvd _⟩
          · rw [resolveActiveNat_orphan hbl' hp' hpl]; left; rfl
    · rw [resolveActive_outOfRange hr]; left; rfl
  · decide

/-- C9: the computation is total (all embedded functions are total Lean
functions); an out-of-range cursor line (negative or `≥` line count)
yields no active block, and the empty document yields an empty
`rangesByColumn` key set and no active block. -/
theorem c9_totality_edges (doc : List String) (cursor : Int) :
    ((cursor < 0 ∨ (doc.length : Int) ≤ cursor) → resolveActive doc cursor = (-1, -1, -1)) ∧
    keyCols ([] : List String) = [] ∧
    resolveActive ([] : List String) cursor = (-1, -1, -1) := by
  refine ⟨?_, by decide, ?_⟩
  · intro h
    exact resolveActive_outOfRange (by omega)
  · refine resolveActive_outOfRange ?_
    simp only [List.length_nil, Nat.cast_zero]
    omega

/-- Witness for C9 at an out-of-range cursor on a concrete document. -/
theorem c9_totality_edges_witness : resolveActive ["a:"] 5 = (-1, -1, -1) :=
  (c9_totality_edges ["a:"] 5).1 (by decide)

/-- C2 counterexample: in `["  a:", "    b"]` line 0 has a child, yet no
line sits at effective column 0, so column 0 collects no ranges and is not
a key of `rangesByColumn` (the claim as stated is false). -/
theorem c2_counterexample :
    hasNestedContent ["  a:", "    b"] 0 = true ∧
    ¬ ((0 : Nat) ∈ keyCols ["  a:", "    b"]) := by
  constructor
  · decide
  · decide

/-- C2 (amended): column 0 is a key of `rangesByColumn` whenever the
document has at least one line at effective column 0 with a child (a
following non-blank line, skipping blanks, of strictly greater effective
column). -/
theorem c2_column_zero_key {doc : List String} {i : Nat}
    (hcol : getEffectiveIndentColumn (doc.getD i "") = 0)
    (hp : hasNestedContent doc i = true) :
    0 ∈ keyCols doc := by
  obtain ⟨hbl, i0, hi0L, hi0len, hnb0, hblanks, hlt⟩ := hasNestedContent_true_elim hp
  have hilen : i < doc.length := by omega
  have hseg : ∀ k, i + 1 ≤ k → k < i0 + 1 →
      isBlank (doc.getD k "") = true ∨ 0 < getEffectiveIndentColumn (doc.getD k "") := by
    intro k hk1 hk2
    by_cases hk : k = i0
    · right; subst hk; omega
    · left; exact hblanks k (by omega) (by omega)
  have hshift : blockEnd doc 0 i = blockEndScan 0 (doc.drop (i0 + 1)) (i0 + 1) i0 := by
    unfold blockEnd
    have := @blockEndScan_shift doc 0 (i0 + 1) (by omega)
      (doc.drop (i + 1)) (i + 1) i rfl (by omega) hseg
    simpa using this
  have hbe : i0 ≤ blockEnd doc 0 i := by
    rw [hshift]
    exact blockEndScan_ge 0 (doc.drop (i0 + 1)) (i0 + 1) i0 (by omega)
  have hmem : i + 1 ∈ rangesAt doc 0 := mem_rangesAt hilen hbl hcol (le_refl _) (by omega)
  exact mem_keyCols (zero_mem_indentColumns doc) hmem

/-- Witness for C2 (amended) on `["a:", "  b"]` with head line 0. -/
theorem c2_column_zero_key_witness : 0 ∈ keyCols ["a:", "  b"] :=
  @c2_column_zero_key ["a:", "  b"] 0 (by decide) (by decide)

/-- Helper for C7: a flat map over a strictly increasing index list whose
per-index contributions are duplicate-free and pairwise disjoint is
duplicate-free. -/
theorem nodup_flatMap_of_disjoint {f : Nat → List Nat} :
    ∀ l : List Nat, l.Pairwise (fun a b => a < b) → (∀ i, (f i).Nodup) →
    (∀ i j x, i < j → x ∈ f i → x ∈ f j → False) →
    (l.flatMap f).Nodup := by
  intro l
  induction l with
  | nil => intro _ _ _; simp
  | cons a rest ih =>
    intro hpw hnd hdisj
    rw [List.flatMap_cons, List.nodup_append]
    obtain ⟨hlt, htail⟩ := List.pairwise_cons.mp hpw
    refine ⟨hnd a, ih htail hnd hdisj, ?_⟩
    intro x hxa hxrest
    obtain ⟨b, hb, hxb⟩ := List.mem_flatMap.mp hxrest
    exact hdisj a b x (hlt b hb) hxa hxb

/-- C7: at any structural column, no line index receives more than one
guide range — the line intervals contributed by distinct block heads at
the same column are pairwise disjoint, so the column's range list has no
duplicates. -/
theorem c7_ranges_nodup (doc : List String) (c : Nat) : (rangesAt doc c).Nodup := by
  unfold rangesAt
  apply nodup_flatMap_of_disjoint
  · exact List.pairwise_lt_range doc.length
  · intro i
    by_cases hc : isBlank (doc.getD i "") = false ∧ getEffectiveIndentColumn (doc.getD i "") = c
    · rw [if_pos hc]; exact List.nodup_range' _ _
    · rw [if_neg hc]; exact List.nodup_nil
  · intro i j x hij hxi hxj
    by_cases hci : isBlank (doc.getD i "") = false ∧ getEffectiveIndentColumn (doc.getD i "") = c
    · rw [if_pos hci] at hxi
      by_cases hcj : isBlank (doc.getD j "") = false ∧ getEffectiveIndentColumn (doc.getD j "") = c
      · rw [if_pos hcj] at hxj
        have hxi' := List.mem_range'_1.mp hxi
        have hxj' := List.mem_range'_1.mp hxj
        have hjlen : j < doc.length := by
          by_contra hge
          have hj0 : doc.getD j "" = "" := by
            simp [List.getD_eq_getElem?_getD, List.getElem?_eq_none (by omega : doc.length ≤ j)]
          rw [hj0] at hcj
          exact absurd hcj.1 (by decide)
        have hlt := @blockEndScan_lt_stop doc c j hjlen hcj.1
          (le_of_eq hcj.2) (doc.drop (i + 1)) (i + 1) i rfl (by omega) (by omega)
        have hlt' : blockEnd doc c i < j := hlt
        have hge := blockEnd_ge doc c i
        omega
      · rw [if_neg hcj] at hxj; cases hxj
    · rw [if_neg hci] at hxi; cases hxi

/-- C1 counterexample: on `[" a:", "   b"]` (odd effective columns) with
the cursor on line 0 the resolver produces active column 0 with the
non-empty span (1,1), yet column 0 is not a key of `rangesByColumn` and
line 1 is covered by no guide range at column 0 — the claim as stated is
false. -/
theorem c1_counterexample :
    resolveActive [" a:", "   b"] 0 = (0, 1, 1) ∧
    ¬ ((0 : Nat) ∈ keyCols [" a:", "   b"]) ∧
    ¬ ((1 : Nat) ∈ rangesAt [" a:", "   b"] 0) := by
  refine ⟨by decide, by decide, by decide⟩

/-- C1 (amended): for a document in which every non-blank line has an even
effective column, whenever the resolver yields an active block
(`activeColumn ≥ 0` with a non-empty span), the active column is a key of
`rangesByColumn` and every line of the active span is covered by a guide
range at that column. -/
theorem c1_active_span_in_ranges {doc : List String} {cursor : Int}
    (heven : ∀ l ∈ doc, isBlank l = false → getEffectiveIndentColumn l % 2 = 0)
    (hcol : 0 ≤ (resolveActive doc cursor).1)
    (hne : (resolveActive doc cursor).2.1 ≤ (resolveActive doc cursor).2.2) :
    ((resolveActive doc cursor).1).toNat ∈ keyCols doc ∧
    (∀ k : Nat, (resolveActive doc cursor).2.1 ≤ (k : Int) →
      (k : Int) ≤ (resolveActive doc cursor).2.2 →
      k ∈ rangesAt doc ((resolveActive doc cursor).1).toNat) := by
  by_cases hr : 0 ≤ cursor ∧ cursor < (doc.length : Int)
  case neg =>
    rw [resolveActive_outOfRange hr] at hcol
    exact absurd hcol (by norm_num)
  case pos =>
  rw [resolveActive_inRange hr] at hcol hne ⊢
  have hL : cursor.toNat < doc.length := by
    obtain ⟨hr1, hr2⟩ := hr
    omega
  by_cases hbl : isBlank (doc.getD cursor.toNat "")
  · rw [resolveActiveNat_blank hbl] at hcol
    exact absurd hcol (by norm_num)
  · have hbl' : isBlank (doc.getD cursor.toNat "") = false := by simpa using hbl
    have heL : getEffectiveIndentColumn (doc.getD cursor.toNat "") % 2 = 0 :=
      heven _ (getD_mem hL) hbl'
    by_cases hp : hasNestedContent doc cursor.toNat
    · have hcoleq : getIndentationColumn (getIndentationLevel (doc.getD cursor.toNat "")) =
          getEffectiveIndentColumn (doc.getD cursor.toNat "") := by
        unfold getIndentationColumn getIndentationLevel
        omega
      rw [resolveActiveNat_parent hbl' hp, hcoleq] at hne ⊢
      dsimp only at hne ⊢
      obtain ⟨hkey, hcont⟩ := active_parent_core hL hbl' hp
      rw [Int.toNat_natCast]
      constructor
      · have hne' : cursor.toNat + 1 ≤
            scanFwd doc (getEffectiveIndentColumn (doc.getD cursor.toNat "")) (cursor.toNat + 1) cursor.toNat := by
          exact_mod_cast hne
        exact mem_keyCols hkey (hcont (cursor.toNat + 1) (le_refl _) hne')
      · intro k hk1 hk2
        exact hcont k (by exact_mod_cast hk1) (by exact_mod_cast hk2)
    · have hp' : hasNestedContent doc cursor.toNat = false := by simpa using hp
      by_cases hpl : 0 ≤ getParentIndentationLevel doc cursor.toNat
      · have hq0 : 0 ≤ getParentColumn doc cursor.toNat := gPIL_nonneg_iff.mp hpl
        have hq : getParentColumn doc cursor.toNat =
            (((getParentColumn doc cursor.toNat).toNat : Nat) : Int) :=
          (Int.toNat_of_nonneg hq0).symm
        obtain ⟨hkey, hSle, hEge, ⟨A, hAL, hnbA, hAq⟩, hcont⟩ := active_sib_core hL hbl' hq
        have hqeven : (getParentColumn doc cursor.toNat).toNat % 2 = 0 := by
          have hA := heven _ (getD_mem (by omega : A < doc.length)) hnbA
          rwa [hAq] at hA
        have hcoleq : getIndentationColumn (getParentIndentationLevel doc cursor.toNat).toNat =
            (getParentColumn doc cursor.toNat).toNat := by
          unfold getIndentationColumn getParentIndentationLevel
          rw [if_neg (by omega : ¬ getParentColumn doc cursor.toNat < 0), Int.toNat_natCast]
          omega
        rw [resolveActiveNat_sib hbl' hp' hpl, hcoleq] at hne ⊢
        dsimp only at hne ⊢
        rw [Int.toNat_natCast]
        constructor
        · exact mem_keyCols hkey (hcont cursor.toNat hSle hEge)
        · intro k hk1 hk2
          exact hcont k (by exact_mod_cast hk1) (by exact_mod_cast hk2)
      · rw [resolveActiveNat_orphan hbl' hp' hpl] at hcol
        exact absurd hcol (by norm_num)

/-- Witness for C1 (amended) on `["a:", "  b"]` with the cursor on line 0. -/
theorem c1_active_span_in_ranges_witness :
    ((resolveActive ["a:", "  b"] 0).1).toNat ∈ keyCols ["a:", "  b"] ∧
    (∀ k : Nat, (resolveActive ["a:", "  b"] 0).2.1 ≤ (k : Int) →
      (k : Int) ≤ (resolveActive ["a:", "  b"] 0).2.2 →
      k ∈ rangesAt ["a:", "  b"] ((resolveActive ["a:", "  b"] 0).1).toNat) :=
  c1_active_span_in_ranges (by decide) (by decide) (by decide)
